import Mathlib

set_option maxRecDepth 8000

/-!
A shallow embedding of the zhconv conversion engine (`src/converter.rs`) and proofs
about it. Text is modelled as `List Char` (Rust `&str` sliced at character
boundaries: every position the engine manipulates is a character boundary, the block
markers are ASCII, and the degraded path advances by exactly one character). The
compiled Aho-Corasick automaton together with its index-aligned target-word table is
modelled as the list of `(source, target)` pairs it was built from, with the
leftmost-longest query contract the implementation requests via
`MatchKind::LeftmostLongest`.
-/

abbrev Word := List Char

abbrev Dict := List (Word × Word)

/-- Modelled from the spec: the external variant-tag enumeration (`variant.rs` is not
part of the converter source given); the core only needs value identity and equality
(§6), with `Zh` the neutral tag used as the hardcoded variant of `ZhConverter::new`
and as the builder's default target. -/
inductive Variant where
  | Zh | ZhHans | ZhHant | ZhCN | ZhTW | ZhHK | ZhSG | ZhMO | ZhMY
  deriving DecidableEq, Repr, Inhabited

/-- Insertion into a string-keyed map (`HashMap::insert` / one step of `extend`):
any earlier binding of the key is discarded and the new binding appended. -/
def mapInsert (m : Dict) (k v : Word) : Dict :=
  (m.filter (fun p => !(p.1 == k))) ++ [(k, v)]

/-- Key membership in a string-keyed map (`HashMap::contains_key`). -/
def containsKey (m : Dict) (k : Word) : Bool :=
  m.any (fun p => p.1 == k)

/-- Lookup in a string-keyed map. -/
def mapLookup (m : Dict) (k : Word) : Option Word :=
  (m.find? (fun p => p.1 == k)).map (fun p => p.2)

/-- The binding the last insertion of `k` into `m` (scanning left to right) would
leave in place: the value of the rightmost entry keyed `k`. -/
def lastVal (m : Dict) (k : Word) : Option Word :=
  match m with
  | [] => none
  | p :: m' =>
    match lastVal m' k with
    | some v => some v
    | none => if p.1 == k then some p.2 else none

/-- Modelled from the spec: the per-position contract of the external multi-pattern
matcher (§4.1, `daachorse` with `MatchKind::LeftmostLongest`): among the dictionary
entries whose non-empty source is a prefix of the text, the longest one (sources are
unique in every compiled dictionary, so ties cannot arise there). -/
def bestAt : Dict → Word → Option (Word × Word)
  | [], _ => none
  | p :: d, t =>
    match bestAt d t with
    | none => if p.1.isPrefixOf t && !p.1.isEmpty then some p else none
    | some q =>
      if p.1.isPrefixOf t && !p.1.isEmpty && decide (q.1.length ≤ p.1.length) then some p
      else some q

/-- Modelled from the spec: the leftmost-longest first match of the automaton on `t`
(§4.1): the smallest start position at which some source matches, and the longest
source matching there. Returns `(start, source, target)`. -/
def firstMatch (d : Dict) : Word → Option (Nat × Word × Word)
  | [] => none
  | c :: rest =>
    match bestAt d (c :: rest) with
    | some p => some (0, p.1, p.2)
    | none =>
      match firstMatch d rest with
      | some r => some (r.1 + 1, r.2.1, r.2.2)
      | none => none

/-- Fuelled core of `ZhConverter::convert_to`: copy the gap before the next
leftmost-longest match verbatim, emit the match's target word, resume right after the
match's end. The fuel only certifies termination; `convert_to` supplies enough. -/
def convert_to_fuel (d : Dict) : Nat → Word → Word
  | 0, t => t
  | fuel + 1, t =>
    match firstMatch d t with
    | none => t
    | some (s, src, tgt) =>
      t.take s ++ tgt ++ convert_to_fuel d fuel (t.drop (s + src.length))

/-- `ZhConverter::convert_to` (and `convert`): whole-text substitution. -/
def convert_to (d : Dict) (t : Word) : Word :=
  convert_to_fuel d t.length t

/-- The `(start, end)` byte-range pair of a match, as compared by
`(a.start(), a.end()).cmp(&(b.start(), b.end()))` in `convert_to_with`. -/
def spanOf (m : Nat × Word × Word) : Nat × Nat :=
  (m.1, m.1 + m.2.1.length)

/-- Lexicographic order on `(start, end)` pairs (`Ord for (usize, usize)`). -/
def pairLe (x y : Nat × Nat) : Bool :=
  decide (x.1 < y.1 ∨ (x.1 = y.1 ∧ x.2 ≤ y.2))

/-- One arbitration step of `ZhConverter::convert_to_with` on the current suffix `t`:
the `match` over the two matchers' next candidates, returning the
`(s, e, target_word)` triple the loop body will emit, or `none` for the
`(None, None)` arm that copies the remainder and breaks. Guard and arms are those of
the source: the secondary (shadowing) match `b` is taken when both exist and
`(a.start, a.end) ≤ (b.start, b.end)` lexicographically, or when only it exists;
otherwise the base match `a` is taken unless its target word is in the suppressed
set, in which case the step degrades to copying one character. -/
def shadowStep (base shadow : Dict) (supp : List Word) (t : Word) :
    Option (Nat × Nat × Word) :=
  match firstMatch base t, firstMatch shadow t with
  | some a, some b =>
    if pairLe (spanOf a) (spanOf b) then
      some ((spanOf b).1, (spanOf b).2, b.2.2)
    else if supp.contains a.2.2 then
      some (0, 1, t.take 1)
    else
      some ((spanOf a).1, (spanOf a).2, a.2.2)
  | none, some b => some ((spanOf b).1, (spanOf b).2, b.2.2)
  | some a, none =>
    if supp.contains a.2.2 then
      some (0, 1, t.take 1)
    else
      some ((spanOf a).1, (spanOf a).2, a.2.2)
  | none, none => none

/-- Fuelled core of `ZhConverter::convert_to_with` (shadowed conversion): the
`while !text.is_empty()` loop, emitting `text[..s]`, then the chosen word, then
continuing on `text[e..]`. -/
def convert_to_with_fuel (base shadow : Dict) (supp : List Word) :
    Nat → Word → Word
  | 0, t => t
  | fuel + 1, t =>
    if t.isEmpty then
      []
    else
      match shadowStep base shadow supp t with
      | none => t
      | some (s, e, w) =>
        t.take s ++ w ++ convert_to_with_fuel base shadow supp fuel (t.drop e)

/-- `ZhConverter::convert_to_with`. -/
def convert_to_with (base shadow : Dict) (supp : List Word) (t : Word) : Word :=
  convert_to_with_fuel base shadow supp t.length t

/-- The converter (`struct ZhConverter`): its compiled automaton and index-aligned
target-word table are carried as the `(source, target)` pair list `dict`, its target
variant as `variant`. -/
structure ZhConverter where
  variant : Variant
  dict : Dict
  deriving Repr, DecidableEq

/-- `ZhConverter::new`: the variant is fixed to `Variant::Zh`. -/
def ZhConverter.new (dict : Dict) : ZhConverter :=
  { variant := Variant.Zh, dict := dict }

/-- `ZhConverter::with_target_variant`. -/
def ZhConverter.with_target_variant (dict : Dict) (variant : Variant) : ZhConverter :=
  { variant := variant, dict := dict }

/-- `ZhConverter::convert` / `convert_to` as a method. -/
def ZhConverter.convert (c : ZhConverter) (t : Word) : Word :=
  convert_to c.dict t

/-- Modelled from the spec: one page-global directive as produced by the external
rule resolver's page scan (§6) — `PageRules::from_str` and
`ConvAction::as_conv().get_conv_pairs(variant)` live in `pagerules.rs` / `rule.rs`,
which are not part of the given converter source. Each directive is an addition
`(source, target)` or a removal `(source)`, already resolved for the configured
target variant; the wikitext entry points below receive the scanned, ordered action
list as an argument. -/
inductive ConvAction where
  | add : Word → Word → ConvAction
  | remove : Word → ConvAction
  deriving Repr, DecidableEq

/-- The `shadowing_pairs` map accumulated in `convert_to_as_wikitext`: additions
with a non-empty source, later ones overwriting earlier ones on the same source. -/
def shadowingPairsOf (actions : List ConvAction) : Dict :=
  actions.foldl
    (fun m a =>
      match a with
      | ConvAction.add f t => if f.isEmpty then m else mapInsert m f t
      | ConvAction.remove _ => m)
    []

/-- The `shadowed_source_words` set accumulated in `convert_to_as_wikitext`: the
source words of all removal directives. -/
def suppressedOf (actions : List ConvAction) : List Word :=
  actions.foldl
    (fun s a =>
      match a with
      | ConvAction.add _ _ => s
      | ConvAction.remove f => s ++ [f])
    []

/-- `NESTED_RULE_MAX_DEPTH`. -/
def NESTED_RULE_MAX_DEPTH : Nat := 10

/-- The substr `text[i..j]` at character granularity. -/
def substr (t : Word) (i j : Nat) : Word :=
  (t.drop i).take (j - i)

/-- Leftmost occurrence of either marker of `pat_inner` (regex `-\{|\}-`), scanning a
suffix `s` whose first character sits at absolute position `i`. Returns the absolute
start of the marker and whether it is the start marker (the match always has width
two). -/
def findMarkerAux : Word → Nat → Option (Nat × Bool)
  | [], _ => none
  | [_], _ => none
  | a :: b :: rest, i =>
    if a = '-' ∧ b = '{' then some (i, true)
    else if a = '}' ∧ b = '-' then some (i, false)
    else findMarkerAux (b :: rest) (i + 1)

/-- `pat_inner.find_at(text, pos)`. -/
def findInner (t : Word) (pos : Nat) : Option (Nat × Bool) :=
  findMarkerAux (t.drop pos) pos

/-- Least index at which `tag` occurs in `s`, with no newline before it (the lazy
`.*?` of the skipped-HTML patterns matches any characters except `'\n'`). Returns
the index relative to `s`. -/
def scanToTag (tag : Word) : Word → Option Nat
  | [] => none
  | c :: rest =>
    if tag.isPrefixOf (c :: rest) then some 0
    else if c = '\n' then none
    else (scanToTag tag rest).map (fun r => r + 1)

/-- Width of the protected HTML-literal region starting at the head of `s`, if any:
the alternatives `<script.*?>.*?</script>`, `<style.*?>.*?</style>`,
`<code>.*?</code>` and `<pre.*?>.*?</pre>` of `pat_outer`, with the regex crate's
lazy (shortest-first) semantics. Taking the least `>` and then the least closing tag
is exact here: if no closing tag precedes the next newline after the first
candidate `>`, the same holds after every later candidate. -/
def matchHtmlLen (s : Word) : Option Nat :=
  if ("<script".data).isPrefixOf s then
    match scanToTag ['>'] (s.drop 7) with
    | none => none
    | some p =>
      match scanToTag ("</script>".data) (s.drop (7 + p + 1)) with
      | none => none
      | some q => some (7 + p + 1 + q + 9)
  else if ("<style".data).isPrefixOf s then
    match scanToTag ['>'] (s.drop 6) with
    | none => none
    | some p =>
      match scanToTag ("</style>".data) (s.drop (6 + p + 1)) with
      | none => none
      | some q => some (6 + p + 1 + q + 8)
  else if ("<code>".data).isPrefixOf s then
    match scanToTag ("</code>".data) (s.drop 6) with
    | none => none
    | some q => some (6 + q + 7)
  else if ("<pre".data).isPrefixOf s then
    match scanToTag ['>'] (s.drop 4) with
    | none => none
    | some p =>
      match scanToTag ("</pre>".data) (s.drop (4 + p + 1)) with
      | none => none
      | some q => some (4 + p + 1 + q + 6)
  else none

/-- Leftmost match of `pat_outer` (`sor_or_html` when `skipHtml`, else `sor`) in the
suffix `s` starting at absolute position `i`: returns `(start, end, is_sor)` where
`is_sor` records whether the match is the `-{` alternative (`m1.as_str() == "-{"`). -/
def findOuterAux (skipHtml : Bool) : Word → Nat → Option (Nat × Nat × Bool)
  | [], _ => none
  | c :: rest, i =>
    if (['-', '{']).isPrefixOf (c :: rest) then some (i, i + 2, true)
    else
      match (if skipHtml then matchHtmlLen (c :: rest) else none) with
      | some len => some (i, i + len, false)
      | none => findOuterAux skipHtml rest (i + 1)

/-- `pat_outer.find_at(text, pos)`. -/
def findOuter (skipHtml : Bool) (t : Word) (pos : Nat) : Option (Nat × Nat × Bool) :=
  findOuterAux skipHtml (t.drop pos) pos

/-- The inner `while let Some(m2) = pat_inner.find_at(text, pos)` loop of
`convert_to_as_wikitext`, operating on the frame stack `pieces` (head of the list =
innermost frame = the `Vec`'s last element). `R` is the external rule resolver
(`ConvRule::from_str_infallible(piece).targeted(variant)`, from `rule.rs`, not part
of the given converter source — passed as a parameter per §6). Returns
`(pos, pieces, direct)`: the scan position on exit, the frames still open, and the
text written directly to the output (non-empty only when the stack emptied and the
loop broke back to top level). -/
def innerLoop (t : Word) (R : Word → Variant → Word) (v : Variant) :
    Nat → Nat → List Word → Nat × List Word × Word
  | 0, pos, pieces => (pos, pieces, [])
  | fuel + 1, pos, pieces =>
    match findInner t pos with
    | none => (pos, pieces, [])
    | some (ms, isStart) =>
      if isStart then
        if NESTED_RULE_MAX_DEPTH ≤ pieces.length then
          innerLoop t R v fuel (pos + 2) pieces
        else
          match pieces with
          | top :: rest =>
            innerLoop t R v fuel (ms + 2) ([] :: (top ++ substr t pos ms) :: rest)
          | [] => (pos, pieces, [])
      else
        match pieces with
        | piece :: rest =>
          match rest with
          | [] => (ms + 2, [], R (piece ++ substr t pos ms) v)
          | upper :: rest2 =>
            innerLoop t R v fuel (ms + 2)
              ((upper ++ R (piece ++ substr t pos ms) v) :: rest2)
        | [] => (pos, pieces, [])

/-- The unwinding of still-open frames at end of input:
`while let Some(piece) = pieces.pop() { output += "-{"; output += piece }` — the
`Vec` pops from its end, so the innermost frame (head of our list) is emitted
first. -/
def unwindFrames (pieces : List Word) : Word :=
  (pieces.map (fun p => '-' :: '{' :: p)).flatten

/-- The outer `while let Some(m1) = pat_outer.find_at(text, pos)` loop of
`convert_to_as_wikitext`. `cvt` is the active conversion path for non-block text
(plain, or shadowed when an overlay was installed); the trailing text after the last
marker is converted with the plain `self.convert`, exactly as in the source. -/
def outerLoop (t : Word) (R : Word → Variant → Word) (v : Variant) (skipHtml : Bool)
    (cvt : Word → Word) (base : Dict) : Nat → Nat → Word
  | 0, _ => []
  | fuel + 1, pos =>
    match findOuter skipHtml t pos with
    | none => if pos < t.length then convert_to base (t.drop pos) else []
    | some (ms, me, isSor) =>
      if isSor then
        let r := innerLoop t R v (t.length + 1) (ms + 2) [[]]
        cvt (substr t pos ms) ++ r.2.2 ++ unwindFrames r.2.1 ++
          outerLoop t R v skipHtml cvt base fuel r.1
      else
        cvt (substr t pos ms) ++ substr t ms me ++
          outerLoop t R v skipHtml cvt base fuel me

/-- `ZhConverter::convert_to_as_wikitext`. The page-global rules pre-pass is the
scan over `actions` (the spec-modelled page-scan result, §6): additions feed the
shadowing map, removals the suppressed set, and — exactly as in the source — the
shadow overlay is installed only when the shadowing map is non-empty
(`if !shadowing_pairs.is_empty()`). -/
def convert_to_as_wikitext (R : Word → Variant → Word) (actions : List ConvAction)
    (skipHtml applyGlobalRules : Bool) (c : ZhConverter) (t : Word) : Word :=
  let sp := if applyGlobalRules then shadowingPairsOf actions else []
  let sw := if applyGlobalRules then suppressedOf actions else []
  let cvt := if sp.isEmpty then convert_to c.dict else convert_to_with c.dict sp sw
  outerLoop t R c.variant skipHtml cvt c.dict (t.length + 1) 0

/-- `ZhConverter::convert_as_wikitext_basic`: no HTML skipping, global rules
ignored. -/
def convert_as_wikitext_basic (R : Word → Variant → Word) (c : ZhConverter)
    (t : Word) : Word :=
  convert_to_as_wikitext R [] false false c t

/-- `ZhConverter::convert_as_wikitext_extended`: HTML-literal regions skipped and
page-global rules applied. -/
def convert_as_wikitext_extended (R : Word → Variant → Word)
    (actions : List ConvAction) (c : ZhConverter) (t : Word) : Word :=
  convert_to_as_wikitext R actions true true c t

/-- `struct ZhConverterBuilder`. Each base table is carried as its already-expanded
`(source, target)` pair sequence — the spec supplies base dictionaries to the
Builder as "already-materialized parallel sequences of (source, target)" (§6);
`expand_table` itself lives outside the given converter source. The default target
is the neutral `Variant::Zh` (spec §4.4 / C10 sources; `Variant`'s `Default` impl is
outside the given source). -/
structure ZhConverterBuilder where
  target : Variant := Variant.Zh
  tables : List Dict := []
  adds : Dict := []
  removes : Dict := []
  deriving Repr, DecidableEq

/-- `ZhConverterBuilder::new()` (`Default::default()`). -/
def ZhConverterBuilder.new : ZhConverterBuilder := {}

/-- `ZhConverterBuilder::target`. -/
def ZhConverterBuilder.setTarget (b : ZhConverterBuilder) (v : Variant) :
    ZhConverterBuilder :=
  { b with target := v }

/-- `ZhConverterBuilder::table`. -/
def ZhConverterBuilder.table (b : ZhConverterBuilder) (tbl : Dict) :
    ZhConverterBuilder :=
  { b with tables := b.tables ++ [tbl] }

/-- `ZhConverterBuilder::add_conv_pair`. A `none` result models the Rust `panic!`
on an empty source word (`"Conv pair should have non-empty from."`). -/
def add_conv_pair (b : ZhConverterBuilder) (f t : Word) :
    Option ZhConverterBuilder :=
  if f.isEmpty then none
  else some { b with adds := mapInsert b.adds f t }

/-- `ZhConverterBuilder::remove_conv_pair`: inserts into the removes map. The
source contains no emptiness check on this path, so no `none` case arises. -/
def remove_conv_pair (b : ZhConverterBuilder) (f t : Word) :
    Option ZhConverterBuilder :=
  some { b with removes := mapInsert b.removes f t }

/-- The final mapping computed by `ZhConverterBuilder::build`: all table entries in
order (dropping those whose source and target are both empty, and those whose
source is in the removes map), then all added pairs not in the removes map, each
inserted with overwrite-on-duplicate-source (`HashMap::extend`). -/
def mappingOf (b : ZhConverterBuilder) : Dict :=
  let m1 :=
    ((b.tables.flatten.filter (fun p => !(p.1.isEmpty && p.2.isEmpty))).filter
        (fun p => !containsKey b.removes p.1)).foldl
      (fun m p => mapInsert m p.1 p.2) []
  (b.adds.filter (fun p => !containsKey b.removes p.1)).foldl
    (fun m p => mapInsert m p.1 p.2) m1

/-- `ZhConverterBuilder::build`. A `none` result models the automaton builder's
failure (unwrapped in the source) when an empty source word reaches it — the source
itself notes "empty str would trouble AC". -/
def ZhConverterBuilder.build (b : ZhConverterBuilder) : Option ZhConverter :=
  let m := mappingOf b
  if m.any (fun p => p.1.isEmpty) then none
  else some { variant := b.target, dict := m }

/-- `ZhConverter::from_pairs`: feed every pair to `add_conv_pair` on a fresh
builder, then `build`. -/
def from_pairs (prs : Dict) : Option ZhConverter :=
  (prs.foldl (fun ob p => ob.bind (fun b => add_conv_pair b p.1 p.2))
      (some ZhConverterBuilder.new)).bind
    ZhConverterBuilder.build

/-- The decomposition of a `convert_to` run into pieces: each piece is a pair
`(consumed input segment, emitted output segment)` — an unmatched gap (copied
verbatim) followed by a `(source, target)` substitution for every match, in text
order. -/
def convert_trace_fuel (d : Dict) : Nat → Word → List (Word × Word)
  | 0, t => [(t, t)]
  | fuel + 1, t =>
    match firstMatch d t with
    | none => [(t, t)]
    | some (s, src, tgt) =>
      (t.take s, t.take s) :: (src, tgt) ::
        convert_trace_fuel d fuel (t.drop (s + src.length))

/-- The piece decomposition of `convert_to d t`. -/
def convert_trace (d : Dict) (t : Word) : List (Word × Word) :=
  convert_trace_fuel d t.length t

/-- The piece decomposition of a `convert_to_with` run: verbatim gaps, the consumed
match range paired with the emitted word for every arbitration step (a degraded
suppression step consumes and emits the same single character). -/
def convert_with_trace_fuel (base shadow : Dict) (supp : List Word) :
    Nat → Word → List (Word × Word)
  | 0, t => [(t, t)]
  | fuel + 1, t =>
    if t.isEmpty then []
    else
      match shadowStep base shadow supp t with
      | none => [(t, t)]
      | some (s, e, w) =>
        (t.take s, t.take s) :: (substr t s e, w) ::
          convert_with_trace_fuel base shadow supp fuel (t.drop e)

/-- The piece decomposition of `convert_to_with base shadow supp t`. -/
def convert_with_trace (base shadow : Dict) (supp : List Word) (t : Word) :
    List (Word × Word) :=
  convert_with_trace_fuel base shadow supp t.length t

/-- Whether the text contains the block start marker `-{` (as a two-character
subsequence at adjacent positions). -/
def hasSor : Word → Bool
  | [] => false
  | [_] => false
  | a :: b :: rest => (decide (a = '-') && decide (b = '{')) || hasSor (b :: rest)

/-- Whether the text contains either block marker `-{` or `}-`. -/
def hasMarker : Word → Bool
  | [] => false
  | [_] => false
  | a :: b :: rest =>
    (decide (a = '-') && decide (b = '{')) || (decide (a = '}') && decide (b = '-')) ||
      hasMarker (b :: rest)

/-- The text `-{` repeated `n` times. -/
def sorRep : Nat → Word
  | 0 => []
  | n + 1 => '-' :: '{' :: sorRep n

/-- A rule resolver rendering every block as its raw interior (identity). -/
def rule_id : Word → Variant → Word := fun s _ => s

/-- A rule resolver rendering every block as the empty string (as a hidden or
removal rule does). -/
def rule_drop : Word → Variant → Word := fun _ _ => []

/-- A rule resolver agreeing with `rule_id` exactly on the `Zh` variant. -/
def rule_zh_only : Word → Variant → Word :=
  fun s v => if v = Variant.Zh then s else []

/-- A converter with the single-pair dictionary X→Y. -/
def conv_XY : ZhConverter := ZhConverter.new [(['X'], ['Y'])]

/-- A converter with the single-pair dictionary d→D. -/
def conv_dD : ZhConverter := ZhConverter.new [(['d'], ['D'])]

/-- A converter with the single-pair dictionary a→X. -/
def conv_aX : ZhConverter := ZhConverter.new [(['a'], ['X'])]

/-- A converter with an empty dictionary. -/
def conv_empty : ZhConverter := ZhConverter.new []

/-- A builder holding the one-entry base table X→Y. -/
def builder_XY : ZhConverterBuilder := ZhConverterBuilder.new.table [(['X'], ['Y'])]

/-! Helper lemmas about lists and the matcher model. -/

theorem ne_nil_of_isEmpty_eq_false {l : Word} (h : l.isEmpty = false) : l ≠ [] := by
  cases l with
  | nil => simp [List.isEmpty] at h
  | cons x xs => simp

theorem isPrefixOf_append_drop :
    ∀ a b : Word, a.isPrefixOf b = true → a ++ b.drop a.length = b
  | [], _, _ => rfl
  | _ :: _, [], h => by simp [List.isPrefixOf] at h
  | x :: a, y :: b, h => by
    have h' := h
    simp only [List.isPrefixOf, Bool.and_eq_true, beq_iff_eq] at h'
    obtain ⟨rfl, h2⟩ := h'
    simpa using isPrefixOf_append_drop a b h2

theorem length_le_of_isPrefixOf {a b : Word} (h : a.isPrefixOf b = true) :
    a.length ≤ b.length := by
  have h2 := congrArg List.length (isPrefixOf_append_drop a b h)
  simp only [List.length_append] at h2
  omega

theorem take_len_append : ∀ a b : Word, (a ++ b).take a.length = a
  | [], _ => rfl
  | x :: a, b => by simp [take_len_append a b]

theorem drop_len_append : ∀ a b : Word, (a ++ b).drop a.length = b
  | [], _ => rfl
  | x :: a, b => by simp [drop_len_append a b]

theorem bestAt_spec :
    ∀ (d : Dict) (t : Word) (p : Word × Word), bestAt d t = some p →
      p ∈ d ∧ p.1.isPrefixOf t = true ∧ p.1 ≠ []
  | [], t, p, h => by simp [bestAt] at h
  | q :: d, t, p, h => by
    rw [bestAt] at h
    cases hb : bestAt d t with
    | none =>
      rw [hb] at h
      dsimp only at h
      by_cases hq : (q.1.isPrefixOf t && !q.1.isEmpty) = true
      · rw [if_pos hq] at h
        simp only [Bool.and_eq_true] at hq
        cases h
        exact ⟨List.mem_cons_self _ _, hq.1,
          ne_nil_of_isEmpty_eq_false (by simpa using hq.2)⟩
      · rw [if_neg hq] at h
        cases h
    | some r =>
      rw [hb] at h
      dsimp only at h
      have hr := bestAt_spec d t r hb
      by_cases hq : (q.1.isPrefixOf t && !q.1.isEmpty &&
          decide (r.1.length ≤ q.1.length)) = true
      · rw [if_pos hq] at h
        cases h
        simp only [Bool.and_eq_true] at hq
        exact ⟨List.mem_cons_self _ _, hq.1.1,
          ne_nil_of_isEmpty_eq_false (by simpa using hq.1.2)⟩
      · rw [if_neg hq] at h
        cases h
        exact ⟨List.mem_cons_of_mem _ hr.1, hr.2⟩

theorem firstMatch_spec :
    ∀ (d : Dict) (t : Word) (s : Nat) (src tgt : Word),
      firstMatch d t = some (s, src, tgt) →
      (src, tgt) ∈ d ∧ src ≠ [] ∧ src.isPrefixOf (t.drop s) = true ∧
        s + src.length ≤ t.length
  | d, [], s, src, tgt, h => by simp [firstMatch] at h
  | d, c :: rest, s, src, tgt, h => by
    rw [firstMatch] at h
    cases hb : bestAt d (c :: rest) with
    | some p =>
      rw [hb] at h
      dsimp only at h
      cases h
      have hp := bestAt_spec d (c :: rest) p hb
      refine ⟨hp.1, hp.2.2, by simpa using hp.2.1, ?_⟩
      simpa using length_le_of_isPrefixOf hp.2.1
    | none =>
      rw [hb] at h
      dsimp only at h
      cases hf : firstMatch d rest with
      | none => rw [hf] at h; cases h
      | some r =>
        rw [hf] at h
        dsimp only at h
        cases h
        have hr := firstMatch_spec d rest r.1 r.2.1 r.2.2 (by rw [hf])
        refine ⟨hr.1, hr.2.1, by simpa using hr.2.2.1, ?_⟩
        have h4 := hr.2.2.2
        simp only [List.length_cons]
        omega

theorem firstMatch_decomp {d : Dict} {t : Word} {s : Nat} {src tgt : Word}
    (h : firstMatch d t = some (s, src, tgt)) :
    t = t.take s ++ src ++ t.drop (s + src.length) := by
  have hs := firstMatch_spec d t s src tgt h
  have h1 : src ++ (t.drop s).drop src.length = t.drop s :=
    isPrefixOf_append_drop _ _ hs.2.2.1
  have h2 : (t.drop s).drop src.length = t.drop (s + src.length) := by
    rw [List.drop_drop]
  rw [← h2, List.append_assoc, h1]
  exact (List.take_append_drop s t).symm

theorem convert_to_fuel_nil (d : Dict) : ∀ fuel, convert_to_fuel d fuel [] = []
  | 0 => rfl
  | fuel + 1 => by simp [convert_to_fuel, firstMatch]

theorem firstMatch_nil_of (d : Dict) {t : Word} (h : t = []) :
    firstMatch d t = none := by
  subst h; rfl

theorem convert_to_fuel_eq (d : Dict) :
    ∀ (fuel fuel' : Nat) (t : Word), t.length ≤ fuel → t.length ≤ fuel' →
      convert_to_fuel d fuel t = convert_to_fuel d fuel' t := by
  intro fuel
  induction fuel with
  | zero =>
    intro fuel' t h h'
    have ht : t = [] := List.eq_nil_of_length_eq_zero (Nat.le_zero.mp h)
    subst ht
    simp [convert_to_fuel_nil]
  | succ fuel ih =>
    intro fuel' t h h'
    cases t with
    | nil => simp [convert_to_fuel_nil]
    | cons c rest =>
      cases fuel' with
      | zero => simp at h'
      | succ fuel' =>
        rw [convert_to_fuel, convert_to_fuel]
        cases hf : firstMatch d (c :: rest) with
        | none => rfl
        | some m =>
          obtain ⟨s, src, tgt⟩ := m
          dsimp only
          have hs := firstMatch_spec d (c :: rest) s src tgt hf
          have hlen : ((c :: rest).drop (s + src.length)).length ≤ fuel := by
            rw [List.length_drop]
            have h1 := hs.2.2.2
            have h2 : src.length ≠ 0 := fun hc =>
              hs.2.1 (List.eq_nil_of_length_eq_zero hc)
            simp only [List.length_cons] at h h1 ⊢
            omega
          have hlen' : ((c :: rest).drop (s + src.length)).length ≤ fuel' := by
            rw [List.length_drop]
            have h1 := hs.2.2.2
            have h2 : src.length ≠ 0 := fun hc =>
              hs.2.1 (List.eq_nil_of_length_eq_zero hc)
            simp only [List.length_cons] at h' h1 ⊢
            omega
          rw [ih fuel' _ hlen hlen']

theorem convert_to_of_firstMatch_none {d : Dict} {t : Word}
    (h : firstMatch d t = none) : convert_to d t = t := by
  rw [convert_to]
  cases t with
  | nil => rfl
  | cons c rest =>
    simp only [List.length_cons]
    rw [convert_to_fuel, h]

/-- The resume-after-the-match shape of `convert_to`: the gap before the
leftmost-longest match is copied, its target word emitted, and conversion continues
on the text right after the match's end. -/
theorem convert_to_step {d : Dict} {t : Word} {s : Nat} {src tgt : Word}
    (h : firstMatch d t = some (s, src, tgt)) :
    convert_to d t = t.take s ++ tgt ++ convert_to d (t.drop (s + src.length)) := by
  have ht : t ≠ [] := by
    intro hc
    rw [firstMatch_nil_of d hc] at h
    cases h
  have h1 : convert_to d t = convert_to_fuel d (t.length + 1) t := by
    rw [convert_to]
    exact convert_to_fuel_eq d _ _ t (Nat.le_refl _) (Nat.le_succ _)
  rw [h1, convert_to_fuel, h]
  dsimp only
  have hs := firstMatch_spec d t s src tgt h
  have hlen : (t.drop (s + src.length)).length ≤ t.length := by
    rw [List.length_drop]; omega
  rw [convert_to_fuel_eq d t.length _ _ hlen (Nat.le_refl _)]
  rfl

theorem convert_trace_fuel_fst (d : Dict) :
    ∀ (fuel : Nat) (t : Word),
      ((convert_trace_fuel d fuel t).map Prod.fst).flatten = t
  | 0, t => by simp [convert_trace_fuel]
  | fuel + 1, t => by
    rw [convert_trace_fuel]
    cases hf : firstMatch d t with
    | none => simp
    | some m =>
      obtain ⟨s, src, tgt⟩ := m
      dsimp only
      simp only [List.map_cons, List.flatten_cons]
      rw [convert_trace_fuel_fst d fuel _]
      rw [← List.append_assoc]
      exact (firstMatch_decomp hf).symm

theorem convert_trace_fuel_snd (d : Dict) :
    ∀ (fuel : Nat) (t : Word),
      ((convert_trace_fuel d fuel t).map Prod.snd).flatten = convert_to_fuel d fuel t
  | 0, t => by simp [convert_trace_fuel, convert_to_fuel]
  | fuel + 1, t => by
    rw [convert_trace_fuel, convert_to_fuel]
    cases hf : firstMatch d t with
    | none => simp
    | some m =>
      obtain ⟨s, src, tgt⟩ := m
      dsimp only
      simp only [List.map_cons, List.flatten_cons]
      rw [convert_trace_fuel_snd d fuel _, List.append_assoc]

theorem convert_trace_fuel_mem (d : Dict) :
    ∀ (fuel : Nat) (t : Word) (p : Word × Word),
      p ∈ convert_trace_fuel d fuel t → p.1 = p.2 ∨ p ∈ d
  | 0, t, p, h => by
    rw [convert_trace_fuel] at h
    simp only [List.mem_singleton] at h
    subst h
    exact Or.inl rfl
  | fuel + 1, t, p, h => by
    rw [convert_trace_fuel] at h
    cases hf : firstMatch d t with
    | none =>
      rw [hf] at h
      simp only [List.mem_singleton] at h
      subst h
      exact Or.inl rfl
    | some m =>
      obtain ⟨s, src, tgt⟩ := m
      rw [hf] at h
      simp only [List.mem_cons] at h
      rcases h with h | h | h
      · subst h; exact Or.inl rfl
      · subst h; exact Or.inr (firstMatch_spec d t s src tgt hf).1
      · exact convert_trace_fuel_mem d fuel _ p h

theorem firstMatch_ne_nil {D : Dict} {t : Word} {m : Nat × Word × Word}
    (h : firstMatch D t = some m) : t ≠ [] := by
  intro hc; subst hc; cases h

theorem substr_of_firstMatch {D : Dict} {t : Word} {s : Nat} {src tgt : Word}
    (h : firstMatch D t = some (s, src, tgt)) :
    substr t s (s + src.length) = src ∧ 1 ≤ s + src.length ∧
      s + src.length ≤ t.length := by
  have hs := firstMatch_spec D t s src tgt h
  have hlen : src.length ≠ 0 := fun hc => hs.2.1 (List.eq_nil_of_length_eq_zero hc)
  refine ⟨?_, by omega, hs.2.2.2⟩
  rw [substr]
  have h1 := isPrefixOf_append_drop _ _ hs.2.2.1
  have h2 : (t.drop s).take (s + src.length - s) = (t.drop s).take src.length := by
    congr 1
    omega
  rw [h2, ← h1]
  exact take_len_append src _

theorem substr_zero_one {t : Word} : substr t 0 1 = t.take 1 := by
  simp [substr]

theorem shadowStep_spec {base shadow : Dict} {supp : List Word} {t : Word}
    {s e : Nat} {w : Word} (h : shadowStep base shadow supp t = some (s, e, w)) :
    s ≤ e ∧ 1 ≤ e ∧ e ≤ t.length ∧
      (substr t s e = w ∨ (substr t s e, w) ∈ base ++ shadow) := by
  rw [shadowStep] at h
  cases ha : firstMatch base t with
  | none =>
    cases hb : firstMatch shadow t with
    | none => rw [ha, hb] at h; cases h
    | some b =>
      rw [ha, hb] at h
      obtain ⟨bs, bsrc, btgt⟩ := b
      simp only [spanOf] at h
      cases h
      have hb2 := substr_of_firstMatch hb
      exact ⟨Nat.le_add_right _ _, hb2.2.1, hb2.2.2,
        Or.inr (by rw [hb2.1]; exact List.mem_append_right _ (firstMatch_spec _ _ _ _ _ hb).1)⟩
  | some a =>
    obtain ⟨as, asrc, atgt⟩ := a
    have ha2 := substr_of_firstMatch ha
    have hne : t ≠ [] := firstMatch_ne_nil ha
    have hlen1 : 1 ≤ t.length := by
      cases t with
      | nil => exact absurd rfl hne
      | cons c r => simp
    cases hb : firstMatch shadow t with
    | none =>
      rw [ha, hb] at h
      dsimp only at h
      by_cases hsup : supp.contains atgt = true
      · rw [if_pos hsup] at h
        cases h
        exact ⟨Nat.zero_le _, Nat.le_refl _, hlen1, Or.inl substr_zero_one⟩
      · rw [if_neg hsup] at h
        simp only [spanOf] at h
        cases h
        exact ⟨Nat.le_add_right _ _, ha2.2.1, ha2.2.2,
          Or.inr (by rw [ha2.1]; exact List.mem_append_left _ (firstMatch_spec _ _ _ _ _ ha).1)⟩
    | some b =>
      obtain ⟨bs, bsrc, btgt⟩ := b
      rw [ha, hb] at h
      dsimp only at h
      by_cases hle : pairLe (spanOf (as, asrc, atgt)) (spanOf (bs, bsrc, btgt)) = true
      · rw [if_pos hle] at h
        simp only [spanOf] at h
        cases h
        have hb2 := substr_of_firstMatch hb
        exact ⟨Nat.le_add_right _ _, hb2.2.1, hb2.2.2,
          Or.inr (by rw [hb2.1]; exact List.mem_append_right _ (firstMatch_spec _ _ _ _ _ hb).1)⟩
      · rw [if_neg hle] at h
        by_cases hsup : supp.contains atgt = true
        · rw [if_pos hsup] at h
          cases h
          exact ⟨Nat.zero_le _, Nat.le_refl _, hlen1, Or.inl substr_zero_one⟩
        · rw [if_neg hsup] at h
          simp only [spanOf] at h
          cases h
          exact ⟨Nat.le_add_right _ _, ha2.2.1, ha2.2.2,
            Or.inr (by rw [ha2.1]; exact List.mem_append_left _ (firstMatch_spec _ _ _ _ _ ha).1)⟩

theorem substr_decomp {t : Word} {s e : Nat} (h1 : s ≤ e) (_h2 : e ≤ t.length) :
    t.take s ++ (substr t s e ++ t.drop e) = t := by
  have h3 : (t.drop s).drop (e - s) = t.drop e := by
    rw [List.drop_drop]
    congr 1
    omega
  rw [substr, ← h3, List.take_append_drop, List.take_append_drop]

theorem convert_with_trace_fuel_fst (base shadow : Dict) (supp : List Word) :
    ∀ (fuel : Nat) (t : Word),
      ((convert_with_trace_fuel base shadow supp fuel t).map Prod.fst).flatten = t
  | 0, t => by simp [convert_with_trace_fuel]
  | fuel + 1, t => by
    rw [convert_with_trace_fuel]
    by_cases ht : t.isEmpty = true
    · rw [if_pos ht]
      simp [List.isEmpty_iff.mp ht]
    · rw [if_neg ht]
      cases hstep : shadowStep base shadow supp t with
      | none => simp
      | some m =>
        obtain ⟨s, e, w⟩ := m
        dsimp only
        simp only [List.map_cons, List.flatten_cons]
        rw [convert_with_trace_fuel_fst base shadow supp fuel _]
        have hs := shadowStep_spec hstep
        exact substr_decomp hs.1 hs.2.2.1

theorem convert_with_trace_fuel_snd (base shadow : Dict) (supp : List Word) :
    ∀ (fuel : Nat) (t : Word),
      ((convert_with_trace_fuel base shadow supp fuel t).map Prod.snd).flatten =
        convert_to_with_fuel base shadow supp fuel t
  | 0, t => by simp [convert_with_trace_fuel, convert_to_with_fuel]
  | fuel + 1, t => by
    rw [convert_with_trace_fuel, convert_to_with_fuel]
    by_cases ht : t.isEmpty = true
    · rw [if_pos ht, if_pos ht]
      simp
    · rw [if_neg ht, if_neg ht]
      cases hstep : shadowStep base shadow supp t with
      | none => simp
      | some m =>
        obtain ⟨s, e, w⟩ := m
        dsimp only
        simp only [List.map_cons, List.flatten_cons]
        rw [convert_with_trace_fuel_snd base shadow supp fuel _, List.append_assoc]

theorem convert_with_trace_fuel_mem (base shadow : Dict) (supp : List Word) :
    ∀ (fuel : Nat) (t : Word) (p : Word × Word),
      p ∈ convert_with_trace_fuel base shadow supp fuel t →
        p.1 = p.2 ∨ p ∈ base ++ shadow
  | 0, t, p, h => by
    rw [convert_with_trace_fuel] at h
    simp only [List.mem_singleton] at h
    subst h
    exact Or.inl rfl
  | fuel + 1, t, p, h => by
    rw [convert_with_trace_fuel] at h
    by_cases ht : t.isEmpty = true
    · rw [if_pos ht] at h
      simp at h
    · rw [if_neg ht] at h
      cases hstep : shadowStep base shadow supp t with
      | none =>
        rw [hstep] at h
        simp only [List.mem_singleton] at h
        subst h
        exact Or.inl rfl
      | some m =>
        obtain ⟨s, e, w⟩ := m
        rw [hstep] at h
        simp only [List.mem_cons] at h
        rcases h with h | h | h
        · subst h; exact Or.inl rfl
        · subst h
          have hs := shadowStep_spec hstep
          exact hs.2.2.2
        · exact convert_with_trace_fuel_mem base shadow supp fuel _ p h

/-! Claim theorems. -/

/-- C9: plain convert performs leftmost-longest, non-overlapping matching and
resumes immediately after each match's end: `{"a"→"X","ab"→"Y"}` converts `"ab"` to
`"Y"` (never `"Xb"`), `{"aa"→"Z"}` converts `"aaa"` to `"Za"`, and in general the
output is the converted gap, the matched target, then the conversion of the text
right after the match's end. -/
theorem C9_leftmost_longest_resume :
    ((from_pairs [(['a'], ['X']), (['a', 'b'], ['Y'])]).map
        (fun c => ZhConverter.convert c ['a', 'b'])) = some ['Y'] ∧
    ((from_pairs [(['a', 'a'], ['Z'])]).map
        (fun c => ZhConverter.convert c ['a', 'a', 'a'])) = some ['Z', 'a'] ∧
    ∀ (d : Dict) (t : Word) (s : Nat) (src tgt : Word),
      firstMatch d t = some (s, src, tgt) →
      convert_to d t = t.take s ++ tgt ++ convert_to d (t.drop (s + src.length)) := by
  refine ⟨by decide, by decide, ?_⟩
  intro d t s src tgt h
  exact convert_to_step h

/-- Witness for C9 at a concrete input: the dictionary a→X on "ba" matches at
position 1 and the conversion resumes after it. -/
theorem C9_witness :
    convert_to [(['a'], ['X'])] ['b', 'a'] =
      (['b', 'a']).take 1 ++ ['X'] ++
        convert_to [(['a'], ['X'])] ((['b', 'a']).drop (1 + (['a']).length)) := by
  exact C9_leftmost_longest_resume.2.2 [(['a'], ['X'])] ['b', 'a'] 1 ['a'] ['X']
    (by decide)

/-- C6 counterexample: `remove_conv_pair` with an empty source word does not fail —
and `build()` afterwards still produces a usable converter (here one converting
X to Y), contradicting the claim that every add/remove path rejects an empty source
and that `build()` can never succeed on such a configuration. -/
theorem C6_counterexample :
    ((remove_conv_pair builder_XY [] ['W']).bind ZhConverterBuilder.build).map
      (fun c => ZhConverter.convert c ['X']) = some ['Y'] := by decide

/-- C6 amended: only the add paths reject an empty source word immediately
(`add_conv_pair` panics); `remove_conv_pair` accepts an empty source without any
check, and `build()` on such a configuration still succeeds and produces a usable
converter. -/
theorem C6_empty_source_paths :
    (∀ (b : ZhConverterBuilder) (t : Word), add_conv_pair b [] t = none) ∧
    (∀ (b : ZhConverterBuilder) (t : Word),
      (remove_conv_pair b [] t).isSome = true) ∧
    ((remove_conv_pair builder_XY [] ['W']).bind ZhConverterBuilder.build).isSome =
      true := by
  refine ⟨fun b t => rfl, fun b t => rfl, by decide⟩

theorem convert_to_with_fuel_step {base shadow : Dict} {supp : List Word}
    {t : Word} {fuel s e : Nat} {w : Word} (ht : t.isEmpty = false)
    (h : shadowStep base shadow supp t = some (s, e, w)) :
    convert_to_with_fuel base shadow supp (fuel + 1) t =
      t.take s ++ w ++ convert_to_with_fuel base shadow supp fuel (t.drop e) := by
  rw [convert_to_with_fuel]
  rw [if_neg (by rw [ht]; exact Bool.false_ne_true)]
  rw [h]

/-- C1 counterexample: base dictionary b→B, secondary dictionary a→A, no
suppression, text "ab". The secondary's (start, end) = (0, 1) is lexicographically
smaller than the base's (1, 2), so per the claim the secondary match should win and
"A" should appear in the output; the code instead takes the base match (the guard
tests base ≤ secondary), producing "aB" with no "A" at all. -/
theorem C1_counterexample :
    convert_to_with [(['b'], ['B'])] [(['a'], ['A'])] [] ['a', 'b'] = ['a', 'B'] ∧
      (convert_to_with [(['b'], ['B'])] [(['a'], ['A'])] [] ['a', 'b']).contains 'A' =
        false := by
  exact ⟨by decide, by decide⟩

/-- C1 amended: in shadowed conversion, when both matchers produce a next candidate
the secondary match is taken precisely when the BASE's (start, end) pair is
lexicographically ≤ the SECONDARY's (so the secondary still wins exact ties); when
the secondary's pair is strictly smaller, the code takes the base match instead
(text before it, suppression aside, is copied verbatim). -/
theorem C1_shadow_arbitration :
    ∀ (base shadow : Dict) (supp : List Word) (t : Word)
      (a b : Nat × Word × Word),
      firstMatch base t = some a → firstMatch shadow t = some b →
      (pairLe (spanOf a) (spanOf b) = true →
        ∃ rest, convert_to_with base shadow supp t =
          t.take (spanOf b).1 ++ b.2.2 ++ rest) ∧
      (pairLe (spanOf a) (spanOf b) = false → supp.contains a.2.2 = false →
        ∃ rest, convert_to_with base shadow supp t =
          t.take (spanOf a).1 ++ a.2.2 ++ rest) := by
  intro base shadow supp t a b ha hb
  have hne : t ≠ [] := firstMatch_ne_nil ha
  have hemp : t.isEmpty = false := by
    cases t with
    | nil => exact absurd rfl hne
    | cons c r => rfl
  have hlen : ∃ n, t.length = n + 1 := by
    cases t with
    | nil => exact absurd rfl hne
    | cons c r => exact ⟨r.length, rfl⟩
  obtain ⟨n, hn⟩ := hlen
  constructor
  · intro hle
    have hstep : shadowStep base shadow supp t =
        some ((spanOf b).1, (spanOf b).2, b.2.2) := by
      rw [shadowStep, ha, hb]
      dsimp only
      rw [if_pos hle]
    refine ⟨convert_to_with_fuel base shadow supp n (t.drop (spanOf b).2), ?_⟩
    rw [convert_to_with, hn]
    exact convert_to_with_fuel_step hemp hstep
  · intro hle hsup
    have hstep : shadowStep base shadow supp t =
        some ((spanOf a).1, (spanOf a).2, a.2.2) := by
      rw [shadowStep, ha, hb]
      dsimp only
      rw [if_neg (by rw [hle]; exact Bool.false_ne_true)]
      rw [if_neg (by rw [hsup]; exact Bool.false_ne_true)]
    refine ⟨convert_to_with_fuel base shadow supp n (t.drop (spanOf a).2), ?_⟩
    rw [convert_to_with, hn]
    exact convert_to_with_fuel_step hemp hstep

/-- Witness for C1 at a concrete input: on "ab" with base b→B and secondary a→A the
secondary's span (0,1) is strictly below the base's (1,2), and the base match is the
one emitted. -/
theorem C1_witness :
    ∃ rest, convert_to_with [(['b'], ['B'])] [(['a'], ['A'])] [] ['a', 'b'] =
      (['a', 'b']).take (spanOf (1, ['b'], ['B'])).1 ++ ['B'] ++ rest := by
  exact (C1_shadow_arbitration [(['b'], ['B'])] [(['a'], ['A'])] [] ['a', 'b']
      (1, ['b'], ['B']) (0, ['a'], ['A']) (by decide) (by decide)).2
    (by decide) (by decide)

/-- C2 counterexample: converter X→Y, page-global rules consisting of the single
removal of "X" and no additions, text "-{-|FOO}-X". Per the claim the suppression
must take effect and the trailing "X" must pass through unconverted; the code only
installs the overlay when the shadowing map is non-empty, so the call converts the
"X" to "Y" (the output contains no "X"). -/
theorem C2_counterexample :
    convert_as_wikitext_extended rule_drop [ConvAction.remove ['X']] conv_XY
        ("-{-|FOO}-X".data) = ['Y'] ∧
      (convert_as_wikitext_extended rule_drop [ConvAction.remove ['X']] conv_XY
        ("-{-|FOO}-X".data)).contains 'X' = false := by
  exact ⟨by decide, by decide⟩

/-- C2 amended: when the page-global rules contain no addition with a non-empty
source (in particular, removals only), the shadow overlay is not installed at all —
the call behaves exactly as if no page-global rules had been found, and the
suppressed-source set is ignored. -/
theorem C2_removal_only_ignored :
    ∀ (R : Word → Variant → Word) (actions : List ConvAction) (sk : Bool)
      (c : ZhConverter) (t : Word),
      shadowingPairsOf actions = [] →
      convert_to_as_wikitext R actions sk true c t =
        convert_to_as_wikitext R [] sk true c t := by
  intro R actions sk c t h
  rw [convert_to_as_wikitext, convert_to_as_wikitext]
  simp only [h, if_pos rfl]
  rfl

/-- Witness for C2 at a concrete input: a lone removal behaves as no rules at
all. -/
theorem C2_witness :
    convert_to_as_wikitext rule_drop [ConvAction.remove ['X']] true true conv_XY
        ['X'] =
      convert_to_as_wikitext rule_drop [] true true conv_XY ['X'] := by
  exact C2_removal_only_ignored rule_drop [ConvAction.remove ['X']] true conv_XY
    ['X'] (by decide)

/-- C4 counterexample: eleven consecutive `-{` markers, an empty dictionary and a
resolver that is never invoked. If the 11th marker were accumulated as ordinary
literal text into the innermost frame, the unwound output would still carry all
eleven markers; the code instead skips it (`pos += 2; continue`) without copying it
anywhere, and the output holds only ten. -/
theorem C4_counterexample :
    convert_as_wikitext_basic rule_id conv_empty (sorRep 11) = sorRep 10 ∧
      (sorRep 11).count '{' = 11 ∧
      (convert_as_wikitext_basic rule_id conv_empty (sorRep 11)).count '{' = 10 := by
  refine ⟨by decide, by decide, by decide⟩

/-- C4 amended: when the frame stack already holds `NESTED_RULE_MAX_DEPTH` (10)
frames and the inner scan finds a further `-{` start marker, no frame is opened and
nothing is accumulated anywhere: the stack (including the innermost frame's
content) is left unchanged and the scan position only moves two characters
forward — in particular the marker is not copied into the innermost frame. -/
theorem C4_depth_cap_skips_marker :
    ∀ (t : Word) (R : Word → Variant → Word) (v : Variant) (fuel pos ms : Nat)
      (pieces : List Word),
      NESTED_RULE_MAX_DEPTH ≤ pieces.length →
      findInner t pos = some (ms, true) →
      innerLoop t R v (fuel + 1) pos pieces = innerLoop t R v fuel (pos + 2) pieces := by
  intro t R v fuel pos ms pieces hcap hf
  rw [innerLoop, hf]
  dsimp only
  rw [if_pos hcap, if_pos rfl]

/-- Witness for C4 at a concrete input: a start marker found with ten frames
already open is skipped in place. -/
theorem C4_witness :
    innerLoop ['-', '{'] rule_id Variant.Zh 1 0 (List.replicate 10 []) =
      innerLoop ['-', '{'] rule_id Variant.Zh 0 2 (List.replicate 10 []) := by
  exact C4_depth_cap_skips_marker ['-', '{'] rule_id Variant.Zh 0 0 0
    (List.replicate 10 []) (by decide) (by decide)

/-- C5 counterexample: with an empty dictionary (so substitution can never change
anything) and no closing marker anywhere (so no block is ever resolved), the claim
forces the wikitext output to carry every input code unit exactly once, i.e. to be
the whole input verbatim; on eleven nested `-{` markers the rule-block-aware
conversion instead drops one marker at the depth cap — the output is two characters
shorter than the input, while plain convert of the same input is the identity. -/
theorem C5_counterexample :
    convert_to [] (sorRep 11) = sorRep 11 ∧
      convert_as_wikitext_basic rule_drop conv_empty (sorRep 11) = sorRep 10 ∧
      (convert_as_wikitext_basic rule_drop conv_empty (sorRep 11)).length + 2 =
        (sorRep 11).length := by
  refine ⟨by decide, by decide, by decide⟩

/-- C5 amended: the exactly-once accounting holds for plain convert and for
shadowed conversion — each run decomposes into consecutive pieces whose consumed
segments concatenate to the input and whose emitted segments concatenate to the
output, every piece being either verbatim or a dictionary substitution — but not
for the rule-block-aware wikitext conversions, which can drop code units at the
nesting depth cap. -/
theorem C5_accounting :
    (∀ (d : Dict) (t : Word),
      ((convert_trace d t).map Prod.fst).flatten = t ∧
      ((convert_trace d t).map Prod.snd).flatten = convert_to d t ∧
      ∀ p ∈ convert_trace d t, p.1 = p.2 ∨ p ∈ d) ∧
    (∀ (base shadow : Dict) (supp : List Word) (t : Word),
      ((convert_with_trace base shadow supp t).map Prod.fst).flatten = t ∧
      ((convert_with_trace base shadow supp t).map Prod.snd).flatten =
        convert_to_with base shadow supp t ∧
      ∀ p ∈ convert_with_trace base shadow supp t,
        p.1 = p.2 ∨ p ∈ base ++ shadow) := by
  constructor
  · intro d t
    exact ⟨convert_trace_fuel_fst d t.length t, convert_trace_fuel_snd d t.length t,
      fun p hp => convert_trace_fuel_mem d t.length t p hp⟩
  · intro base shadow supp t
    exact ⟨convert_with_trace_fuel_fst base shadow supp t.length t,
      convert_with_trace_fuel_snd base shadow supp t.length t,
      fun p hp => convert_with_trace_fuel_mem base shadow supp t.length t p hp⟩

/-- Witness for C5 at a concrete input: in the decomposition of converting "a" with
the dictionary a→X, the substitution piece is a dictionary entry. -/
theorem C5_witness :
    (['a'], ['X']).1 = (['a'], ['X']).2 ∨ (['a'], ['X']) ∈ [(['a'], ['X'])] := by
  exact (C5_accounting.1 [(['a'], ['X'])] ['a']).2.2 (['a'], ['X']) (by decide)

theorem convert_to_nil (d : Dict) : convert_to d [] = [] := rfl

theorem outerLoop_none {t : Word} {R : Word → Variant → Word} {v : Variant}
    {sk : Bool} {cvt : Word → Word} {base : Dict}
    (h : findOuterAux sk t 0 = none) :
    outerLoop t R v sk cvt base (t.length + 1) 0 = convert_to base t := by
  rw [outerLoop, findOuter, List.drop_zero, h]
  dsimp only
  by_cases hl : 0 < t.length
  · rw [if_pos hl]
  · rw [if_neg hl]
    have ht : t = [] := by
      cases t with
      | nil => rfl
      | cons c r => simp at hl
    subst ht
    rfl

/-- C8: on text with no block start marker (and, for the extended path, no skipped
HTML literal region either — i.e. the outer pattern finds nothing at all), both
rule-block-aware conversions coincide with plain convert. -/
theorem C8_no_marker_equals_convert :
    ∀ (R : Word → Variant → Word) (actions : List ConvAction) (c : ZhConverter)
      (t : Word),
      (findOuterAux false t 0 = none →
        convert_as_wikitext_basic R c t = convert_to c.dict t) ∧
      (findOuterAux true t 0 = none →
        convert_as_wikitext_extended R actions c t = convert_to c.dict t) := by
  intro R actions c t
  constructor
  · intro h
    rw [convert_as_wikitext_basic, convert_to_as_wikitext]
    exact outerLoop_none h
  · intro h
    rw [convert_as_wikitext_extended, convert_to_as_wikitext]
    exact outerLoop_none h

/-- Witness for C8 at a concrete input: "ab<c" holds no marker and no protected
HTML region, and both wikitext paths equal plain convert with the dictionary
a→X. -/
theorem C8_witness :
    (convert_as_wikitext_basic rule_id conv_aX ("ab<c".data) =
        convert_to conv_aX.dict ("ab<c".data)) ∧
      (convert_as_wikitext_extended rule_id [ConvAction.add ['q'] ['r']] conv_aX
          ("ab<c".data) = convert_to conv_aX.dict ("ab<c".data)) := by
  exact ⟨(C8_no_marker_equals_convert rule_id [] conv_aX ("ab<c".data)).1
      (by decide),
    (C8_no_marker_equals_convert rule_id [ConvAction.add ['q'] ['r']] conv_aX
        ("ab<c".data)).2 (by decide)⟩

theorem innerLoop_resolver_eq (t : Word) (R R2 : Word → Variant → Word)
    (v : Variant) (h : ∀ s, R s v = R2 s v) :
    ∀ (fuel pos : Nat) (pieces : List Word),
      innerLoop t R v fuel pos pieces = innerLoop t R2 v fuel pos pieces
  | 0, pos, pieces => rfl
  | fuel + 1, pos, pieces => by
    rw [innerLoop, innerLoop]
    cases hf : findInner t pos with
    | none => rfl
    | some m =>
      obtain ⟨ms, isStart⟩ := m
      dsimp only
      cases isStart with
      | true =>
        rw [if_pos rfl, if_pos rfl]
        by_cases hcap : NESTED_RULE_MAX_DEPTH ≤ pieces.length
        · rw [if_pos hcap, if_pos hcap]
          exact innerLoop_resolver_eq t R R2 v h fuel (pos + 2) pieces
        · rw [if_neg hcap, if_neg hcap]
          cases pieces with
          | nil => rfl
          | cons top rest =>
            exact innerLoop_resolver_eq t R R2 v h fuel (ms + 2) _
      | false =>
        rw [if_neg Bool.false_ne_true, if_neg Bool.false_ne_true]
        cases pieces with
        | nil => rfl
        | cons piece rest =>
          cases rest with
          | nil =>
            dsimp only
            rw [h (piece ++ substr t pos ms)]
          | cons upper rest2 =>
            dsimp only
            rw [h (piece ++ substr t pos ms)]
            exact innerLoop_resolver_eq t R R2 v h fuel (ms + 2) _

theorem outerLoop_resolver_eq (t : Word) (R R2 : Word → Variant → Word)
    (v : Variant) (sk : Bool) (cvt : Word → Word) (base : Dict)
    (h : ∀ s, R s v = R2 s v) :
    ∀ (fuel pos : Nat),
      outerLoop t R v sk cvt base fuel pos = outerLoop t R2 v sk cvt base fuel pos
  | 0, pos => rfl
  | fuel + 1, pos => by
    rw [outerLoop, outerLoop]
    cases hf : findOuter sk t pos with
    | none => rfl
    | some m =>
      obtain ⟨ms, me, isSor⟩ := m
      dsimp only
      cases isSor with
      | true =>
        rw [if_pos rfl, if_pos rfl]
        rw [innerLoop_resolver_eq t R R2 v h (t.length + 1) (ms + 2) [[]]]
        rw [outerLoop_resolver_eq t R R2 v sk cvt base h fuel _]
      | false =>
        rw [if_neg Bool.false_ne_true, if_neg Bool.false_ne_true]
        rw [outerLoop_resolver_eq t R R2 v sk cvt base h fuel me]

theorem fold_add_none (prs : Dict) :
    prs.foldl (fun ob p => ob.bind (fun b => add_conv_pair b p.1 p.2)) none =
      none := by
  induction prs with
  | nil => rfl
  | cons p prs ih => exact ih

theorem fold_add_target (prs : Dict) :
    ∀ (b b2 : ZhConverterBuilder),
      prs.foldl (fun ob p => ob.bind (fun x => add_conv_pair x p.1 p.2)) (some b) =
        some b2 → b2.target = b.target := by
  induction prs with
  | nil =>
    intro b b2 h
    cases h
    rfl
  | cons p prs ih =>
    intro b b2 h
    rw [List.foldl_cons] at h
    cases hstep : (some b).bind (fun x => add_conv_pair x p.1 p.2) with
    | none =>
      rw [hstep] at h
      rw [fold_add_none] at h
      cases h
    | some b1 =>
      rw [hstep] at h
      have h2 := ih b1 b2 h
      have hstep2 : add_conv_pair b p.1 p.2 = some b1 := hstep
      have h3 : b1.target = b.target := by
        rw [add_conv_pair] at hstep2
        by_cases hp : p.1.isEmpty = true
        · rw [if_pos hp] at hstep2; cases hstep2
        · rw [if_neg hp] at hstep2; cases hstep2; rfl
      rw [h2, h3]

theorem build_variant {b : ZhConverterBuilder} {c : ZhConverter}
    (h : ZhConverterBuilder.build b = some c) : c.variant = b.target := by
  rw [ZhConverterBuilder.build] at h
  by_cases hm : (mappingOf b).any (fun p => p.1.isEmpty) = true
  · rw [if_pos hm] at h; cases h
  · rw [if_neg hm] at h; cases h; rfl

theorem from_pairs_variant {prs : Dict} {c : ZhConverter}
    (h : from_pairs prs = some c) : c.variant = Variant.Zh := by
  rw [from_pairs] at h
  cases hf : prs.foldl (fun ob p => ob.bind (fun b => add_conv_pair b p.1 p.2))
      (some ZhConverterBuilder.new) with
  | none => rw [hf] at h; cases h
  | some bf =>
    rw [hf] at h
    have h1 : ZhConverterBuilder.build bf = some c := h
    have h2 := build_variant h1
    have h3 := fold_add_target prs ZhConverterBuilder.new bf hf
    rw [h2, h3]
    rfl

/-- C10: every converter built by `ZhConverter::new` or `ZhConverter::from_pairs`
has its target variant fixed to `Zh`, whatever dictionary pairs were supplied;
consequently rule-block-aware conversion on such a converter consults the rule
resolver only at the `Zh` variant — two resolvers agreeing on `Zh` yield identical
output on every text. -/
theorem C10_target_variant :
    (∀ d : Dict, (ZhConverter.new d).variant = Variant.Zh) ∧
    (∀ (prs : Dict) (c : ZhConverter), from_pairs prs = some c →
      c.variant = Variant.Zh) ∧
    (∀ (prs : Dict) (c : ZhConverter) (R R2 : Word → Variant → Word)
      (actions : List ConvAction) (sk ag : Bool) (t : Word),
      from_pairs prs = some c →
      (∀ s, R s Variant.Zh = R2 s Variant.Zh) →
      convert_to_as_wikitext R actions sk ag c t =
        convert_to_as_wikitext R2 actions sk ag c t) := by
  refine ⟨fun d => rfl, fun prs c h => from_pairs_variant h, ?_⟩
  intro prs c R R2 actions sk ag t h hR
  have hv := from_pairs_variant h
  rw [convert_to_as_wikitext, convert_to_as_wikitext]
  apply outerLoop_resolver_eq
  rw [hv]
  exact hR

/-- Witness for C10 at a concrete input: the identity resolver and a resolver that
is the identity only on `Zh` agree on a converter built by `from_pairs`. -/
theorem C10_witness :
    convert_to_as_wikitext rule_id [] true true conv_aX ['a'] =
      convert_to_as_wikitext rule_zh_only [] true true conv_aX ['a'] := by
  exact C10_target_variant.2.2 [(['a'], ['X'])] conv_aX rule_id rule_zh_only []
    true true ['a'] (by decide) (fun s => by simp [rule_id, rule_zh_only])

theorem findMarkerAux_some_hasMarker :
    ∀ (b : Word) (i : Nat) (r : Nat × Bool),
      findMarkerAux b i = some r → hasMarker b = true
  | [], i, r, h => by cases h
  | [c], i, r, h => by cases h
  | a :: c :: rest, i, r, h => by
    rw [findMarkerAux] at h
    by_cases h1 : a = '-' ∧ c = '{'
    · simp [hasMarker, h1.1, h1.2]
    · rw [if_neg h1] at h
      by_cases h2 : a = '}' ∧ c = '-'
      · simp [hasMarker, h2.1, h2.2]
      · rw [if_neg h2] at h
        have := findMarkerAux_some_hasMarker (c :: rest) (i + 1) r h
        simp [hasMarker, this]

theorem findMarkerAux_none {b : Word} {i : Nat} (h : hasMarker b = false) :
    findMarkerAux b i = none := by
  cases hf : findMarkerAux b i with
  | none => rfl
  | some r =>
    rw [findMarkerAux_some_hasMarker b i r hf] at h
    cases h

theorem findOuterAux_false_some_hasSor :
    ∀ (b : Word) (i : Nat) (r : Nat × Nat × Bool),
      findOuterAux false b i = some r → hasSor b = true
  | [], i, r, h => by cases h
  | c :: rest, i, r, h => by
    rw [findOuterAux] at h
    by_cases hp : (['-', '{']).isPrefixOf (c :: rest) = true
    · cases rest with
      | nil => simp [List.isPrefixOf] at hp
      | cons c2 rest2 =>
        simp only [List.isPrefixOf, Bool.and_eq_true, beq_iff_eq] at hp
        obtain ⟨hc1, hc2, _⟩ := hp
        subst hc1
        subst hc2
        simp [hasSor]
    · rw [if_neg hp] at h
      rw [if_neg Bool.false_ne_true] at h
      dsimp only at h
      have := findOuterAux_false_some_hasSor rest (i + 1) r h
      cases rest with
      | nil => cases this
      | cons c2 rest2 => simp [hasSor, this]

theorem hasSor_hasMarker : ∀ (b : Word), hasSor b = true → hasMarker b = true
  | [], h => by cases h
  | [c], h => by cases h
  | a :: c :: rest, h => by
    rw [hasSor] at h
    rw [hasMarker]
    rcases Bool.or_eq_true_iff.mp h with h1 | h1
    · simp [h1]
    · simp [hasSor_hasMarker (c :: rest) h1]

theorem findOuterAux_false_none {b : Word} {i : Nat} (h : hasMarker b = false) :
    findOuterAux false b i = none := by
  cases hf : findOuterAux false b i with
  | none => rfl
  | some r =>
    rw [hasSor_hasMarker b (findOuterAux_false_some_hasSor b i r hf)] at h
    cases h

theorem findOuterAux_false_append :
    ∀ (a : Word) (i : Nat) (b : Word), hasSor a = false →
      findOuterAux false (a ++ '-' :: '{' :: b) i =
        some (i + a.length, i + a.length + 2, true)
  | [], i, b, _ => by
    rw [List.nil_append, findOuterAux]
    rw [if_pos (by simp [List.isPrefixOf])]
    simp
  | [x], i, b, h => by
    rw [List.cons_append, List.nil_append, findOuterAux]
    rw [if_neg (by simp [List.isPrefixOf])]
    rw [if_neg Bool.false_ne_true]
    dsimp only
    rw [findOuterAux]
    rw [if_pos (by simp [List.isPrefixOf])]
    simp
  | x :: y :: a, i, b, h => by
    rw [hasSor] at h
    have h1 : ¬ (x = '-' ∧ y = '{') := by
      intro hc
      simp [hc.1, hc.2] at h
    have h2 : hasSor (y :: a) = false := by
      rcases Bool.or_eq_false_iff.mp h with ⟨_, h2⟩
      exact h2
    rw [List.cons_append, findOuterAux]
    rw [if_neg ?hpre]
    case hpre =>
      simp only [List.cons_append, List.isPrefixOf, Bool.and_eq_true, beq_iff_eq]
      intro hc
      exact h1 ⟨hc.1.symm, hc.2.1.symm⟩
    rw [if_neg Bool.false_ne_true]
    dsimp only
    rw [findOuterAux_false_append (y :: a) (i + 1) b h2]
    simp
    omega

theorem innerLoop_none {t : Word} {R : Word → Variant → Word} {v : Variant}
    {pos : Nat} {pieces : List Word} (h : findInner t pos = none) :
    ∀ fuel, innerLoop t R v fuel pos pieces = (pos, pieces, [])
  | 0 => rfl
  | fuel + 1 => by rw [innerLoop, h]

theorem append_marker_assoc (a b : Word) :
    a ++ '-' :: '{' :: b = (a ++ ['-', '{']) ++ b := by simp

theorem drop_append_two (a b : Word) :
    (a ++ '-' :: '{' :: b).drop (a.length + 2) = b := by
  rw [append_marker_assoc]
  have hl : (a ++ ['-', '{']).length = a.length + 2 := by simp
  rw [← hl, drop_len_append]

theorem substr_zero_take {t : Word} {j : Nat} : substr t 0 j = t.take j := by
  simp [substr]

theorem basic_unfold (R : Word → Variant → Word) (c : ZhConverter) (t : Word) :
    convert_as_wikitext_basic R c t =
      outerLoop t R c.variant false (convert_to c.dict) c.dict (t.length + 1) 0 :=
  rfl

/-- C3 counterexample: dictionary d→D, input abc-(open brace)def with no closing marker. The
claim requires converted("abc") followed by the literal, unconverted "-{def"; the
code instead emits the bare "-{" marker (the open frame accumulated no content,
since content is only folded in at markers) and then runs the trailing "def"
through plain convert, producing abc-(open brace)Def. -/
theorem C3_counterexample :
    convert_as_wikitext_basic rule_id conv_dD ("abc-\x7bdef".data) =
        ("abc-\x7bDef".data) ∧
      (("abc-\x7bDef".data : Word) == ("abc-\x7bdef".data : Word)) = false := by
  exact ⟨by decide, by decide⟩

/-- C3 amended: on reaching end of input with an open frame, the frame is flushed
as its `-{` marker plus only the literal content accumulated up to the last marker
seen, and the text after the last marker is not part of any frame — it is run
through plain convert and appended. For a text `a ++ "-{" ++ b` where `a` holds no
start marker and `b` no marker at all, the output is
`convert(a) ++ "-{" ++ convert(b)`. -/
theorem C3_unterminated_flush :
    ∀ (R : Word → Variant → Word) (c : ZhConverter) (a b : Word),
      hasSor a = false → hasMarker b = false →
      convert_as_wikitext_basic R c (a ++ '-' :: '{' :: b) =
        convert_to c.dict a ++ '-' :: '{' :: convert_to c.dict b := by
  intro R c a b ha hb
  rw [basic_unfold]
  have hfo : findOuter false (a ++ '-' :: '{' :: b) 0 =
      some (a.length, a.length + 2, true) := by
    rw [findOuter, List.drop_zero]
    have h0 := findOuterAux_false_append a 0 b ha
    simpa using h0
  rw [outerLoop, hfo]
  dsimp only
  rw [if_pos rfl]
  have hin : findInner (a ++ '-' :: '{' :: b) (a.length + 2) = none := by
    rw [findInner, drop_append_two]
    exact findMarkerAux_none hb
  rw [innerLoop_none hin]
  dsimp only
  have hsub : substr (a ++ '-' :: '{' :: b) 0 a.length = a := by
    rw [substr_zero_take]
    exact take_len_append a _
  rw [hsub]
  have hlt : (a ++ '-' :: '{' :: b).length = a.length + 1 + b.length + 1 := by
    simp
    omega
  rw [hlt, outerLoop]
  have hfo2 : findOuter false (a ++ '-' :: '{' :: b) (a.length + 2) = none := by
    rw [findOuter, drop_append_two]
    exact findOuterAux_false_none hb
  rw [hfo2]
  dsimp only
  rw [drop_append_two]
  by_cases hbl : b = []
  · subst hbl
    rw [if_neg (by simp)]
    simp [unwindFrames, convert_to, convert_to_fuel]
  · rw [if_pos ?hblt]
    case hblt =>
      rw [hlt]
      have : 0 < b.length := by
        cases b with
        | nil => exact absurd rfl hbl
        | cons x xs => simp
      omega
    simp [unwindFrames]

/-- Witness for C3 at a concrete input: the C3 example text with dictionary d→D. -/
theorem C3_witness :
    convert_as_wikitext_basic rule_id conv_dD
        (("abc".data) ++ '-' :: '{' :: ("def".data)) =
      convert_to conv_dD.dict ("abc".data) ++
        '-' :: '{' :: convert_to conv_dD.dict ("def".data) := by
  exact C3_unterminated_flush rule_id conv_dD ("abc".data) ("def".data)
    (by decide) (by decide)

theorem mapLookup_cons (p : Word × Word) (m : Dict) (k : Word) :
    mapLookup (p :: m) k =
      if (p.1 == k) = true then some p.2 else mapLookup m k := by
  by_cases hp : (p.1 == k) = true
  · rw [if_pos hp, mapLookup, List.find?]
    rw [hp]
    rfl
  · have hp2 : (p.1 == k) = false := by
      cases h : (p.1 == k) with
      | true => exact absurd h hp
      | false => rfl
    rw [if_neg hp, mapLookup, List.find?]
    rw [hp2]
    rfl

theorem mapLookup_append (l1 l2 : Dict) (k : Word) :
    mapLookup (l1 ++ l2) k =
      match mapLookup l1 k with
      | some v => some v
      | none => mapLookup l2 k := by
  induction l1 with
  | nil => rfl
  | cons p l1 ih =>
    rw [List.cons_append, mapLookup_cons, mapLookup_cons]
    by_cases hp : (p.1 == k) = true
    · rw [if_pos hp, if_pos hp]
    · rw [if_neg hp, if_neg hp, ih]

theorem mapLookup_filter_ne (m : Dict) (k k2 : Word) :
    mapLookup (m.filter (fun p => !(p.1 == k))) k2 =
      if k2 = k then none else mapLookup m k2 := by
  induction m with
  | nil =>
    by_cases hk : k2 = k
    · simp [mapLookup, hk]
    · simp [mapLookup, hk]
  | cons p m ih =>
    rw [List.filter_cons]
    by_cases hpk : (p.1 == k) = true
    · rw [if_neg (by simp [hpk]), ih, mapLookup_cons]
      by_cases hk : k2 = k
      · rw [if_pos hk, if_pos hk]
      · rw [if_neg hk, if_neg hk]
        have hpk2 : ¬ (p.1 == k2) = true := by
          intro hc
          exact hk ((beq_iff_eq.mp hc).symm.trans (beq_iff_eq.mp hpk))
        rw [if_neg hpk2]
    · rw [if_pos (by simpa using hpk), mapLookup_cons, mapLookup_cons, ih]
      by_cases hk : k2 = k
      · have hpk2 : ¬ (p.1 == k2) = true := by
          intro hc
          exact hpk (by rw [← hk]; exact hc)
        rw [if_neg hpk2, if_pos hk, if_pos hk]
      · rw [if_neg hk, if_neg hk]

theorem mapLookup_mapInsert (m : Dict) (k v k2 : Word) :
    mapLookup (mapInsert m k v) k2 =
      if k2 = k then some v else mapLookup m k2 := by
  rw [mapInsert, mapLookup_append, mapLookup_filter_ne]
  by_cases hk : k2 = k
  · rw [if_pos hk, if_pos hk]
    rw [mapLookup_cons, if_pos (by simpa using hk.symm)]
  · rw [if_neg hk, if_neg hk]
    cases hm : mapLookup m k2 with
    | some v2 => rfl
    | none =>
      rw [mapLookup_cons, if_neg (by simpa using fun hc : k = k2 => hk hc.symm)]
      rfl

theorem mapLookup_foldl_insert :
    ∀ (l m : Dict) (k : Word),
      mapLookup (l.foldl (fun acc p => mapInsert acc p.1 p.2) m) k =
        match lastVal l k with
        | some v => some v
        | none => mapLookup m k
  | [], m, k => rfl
  | p :: l, m, k => by
    rw [List.foldl_cons, mapLookup_foldl_insert l _ k]
    rw [lastVal]
    cases hl : lastVal l k with
    | some v => rfl
    | none =>
      rw [mapLookup_mapInsert]
      by_cases hk : k = p.1
      · rw [if_pos hk, if_pos (by simpa using hk.symm)]
      · rw [if_neg hk, if_neg (by simpa using fun hc : p.1 = k => hk hc.symm)]

theorem lastVal_filter_removes (rm : Dict) :
    ∀ (l : Dict) (k : Word),
      lastVal (l.filter (fun p => !containsKey rm p.1)) k =
        if containsKey rm k = true then none else lastVal l k
  | [], k => by
    cases hc : containsKey rm k with
    | true => simp [lastVal, hc]
    | false => simp [lastVal, hc]
  | p :: l, k => by
    rw [List.filter_cons]
    by_cases hcp : containsKey rm p.1 = true
    · rw [if_neg (by simp [hcp])]
      rw [lastVal_filter_removes rm l k]
      by_cases hk : k = p.1
      · subst hk
        rw [if_pos hcp, if_pos hcp]
      · by_cases hck : containsKey rm k = true
        · rw [if_pos hck, if_pos hck]
        · rw [if_neg hck, if_neg hck, lastVal]
          cases hl : lastVal l k with
          | some v => rfl
          | none =>
            rw [if_neg (by simpa using fun hc : p.1 = k => hk hc.symm)]
    · have hcp2 : containsKey rm p.1 = false := by
        cases hq : containsKey rm p.1 with
        | true => exact absurd hq hcp
        | false => rfl
      rw [if_pos (by rw [hcp2]; rfl)]
      rw [lastVal, lastVal, lastVal_filter_removes rm l k]
      by_cases hck : containsKey rm k = true
      · have hpk : (p.1 == k) = false := by
          cases hq : (p.1 == k) with
          | false => rfl
          | true =>
            rw [beq_iff_eq.mp hq] at hcp2
            rw [hcp2] at hck
            cases hck
        simp [hck, hpk]
      · simp [hck]

theorem lastVal_filter_bothEmpty :
    ∀ (l : Dict) (k : Word), k ≠ [] →
      lastVal (l.filter (fun p => !(p.1.isEmpty && p.2.isEmpty))) k = lastVal l k
  | [], k, _ => rfl
  | p :: l, k, hk => by
    rw [List.filter_cons]
    by_cases hpe : (p.1.isEmpty && p.2.isEmpty) = true
    · rw [if_neg (by simp [hpe])]
      rw [lastVal_filter_bothEmpty l k hk, lastVal]
      cases hl : lastVal l k with
      | some v => rfl
      | none =>
        have hp1 : p.1 = [] := by
          have h2 := hpe
          simp only [Bool.and_eq_true] at h2
          cases hq : p.1 with
          | nil => rfl
          | cons x xs =>
            rw [hq] at h2
            simp [List.isEmpty] at h2
        rw [if_neg (by rw [hp1]; simpa using fun hc : [] = k => hk hc.symm)]
    · have hpe2 : (p.1.isEmpty && p.2.isEmpty) = false := by
        cases hq : (p.1.isEmpty && p.2.isEmpty) with
        | true => exact absurd hq hpe
        | false => rfl
      rw [if_pos (by rw [hpe2]; rfl)]
      rw [lastVal, lastVal, lastVal_filter_bothEmpty l k hk]

theorem mappingOf_lookup (b : ZhConverterBuilder) (k : Word) (hk : k ≠ []) :
    mapLookup (mappingOf b) k =
      if containsKey b.removes k = true then none
      else
        match lastVal b.adds k with
        | some v => some v
        | none => lastVal b.tables.flatten k := by
  rw [mappingOf]
  rw [mapLookup_foldl_insert, lastVal_filter_removes]
  rw [mapLookup_foldl_insert, lastVal_filter_removes]
  rw [lastVal_filter_bothEmpty _ _ hk]
  by_cases hck : containsKey b.removes k = true
  · simp [hck, mapLookup]
  · simp only [hck, if_false, Bool.false_eq_true]
    cases ha : lastVal b.adds k with
    | some v => rfl
    | none =>
      cases ht : lastVal b.tables.flatten k with
      | some v => rfl
      | none => rfl

theorem add_remove_commute (b : ZhConverterBuilder) (f t f2 t2 : Word)
    (hf : f ≠ []) :
    (add_conv_pair b f t).bind (fun x => remove_conv_pair x f2 t2) =
      (remove_conv_pair b f2 t2).bind (fun x => add_conv_pair x f t) := by
  have hfe : f.isEmpty = false := by
    cases f with
    | nil => exact absurd rfl hf
    | cons x xs => rfl
  simp [add_conv_pair, remove_conv_pair, hfe]

/-- C7: `build()` resolves duplicate sources deterministically and
order-independently. For every non-empty source, the final mapping's binding is: if
the source is in the removes map, nothing (regardless of which layer supplied it);
otherwise the adds-map binding if present; otherwise the binding of the last table
entry with that source (later tables overwrite earlier ones). Add and remove
operations on a builder commute, and the concrete consequences hold: table X→Y plus
remove X converts "X" to "X" unchanged, table X→Y plus add X→W converts "X"
to "W". -/
theorem C7_build_precedence :
    (∀ (b : ZhConverterBuilder) (k : Word), k ≠ [] →
      mapLookup (mappingOf b) k =
        if containsKey b.removes k = true then none
        else
          match lastVal b.adds k with
          | some v => some v
          | none => lastVal b.tables.flatten k) ∧
    (∀ (b : ZhConverterBuilder) (f t f2 t2 : Word), f ≠ [] →
      (add_conv_pair b f t).bind (fun x => remove_conv_pair x f2 t2) =
        (remove_conv_pair b f2 t2).bind (fun x => add_conv_pair x f t)) ∧
    ((remove_conv_pair builder_XY ['X'] ['Y']).bind ZhConverterBuilder.build).map
      (fun c => ZhConverter.convert c ['X']) = some ['X'] ∧
    ((add_conv_pair builder_XY ['X'] ['W']).bind ZhConverterBuilder.build).map
      (fun c => ZhConverter.convert c ['X']) = some ['W'] := by
  exact ⟨mappingOf_lookup, add_remove_commute, by decide, by decide⟩

/-- Witness for C7 at a concrete input: the mapping characterization at key "X" of
the builder with table X→Y, and the add/remove commutation at concrete pairs. -/
theorem C7_witness :
    (mapLookup (mappingOf builder_XY) ['X'] =
      if containsKey builder_XY.removes ['X'] = true then none
      else
        match lastVal builder_XY.adds ['X'] with
        | some v => some v
        | none => lastVal builder_XY.tables.flatten ['X']) ∧
    ((add_conv_pair builder_XY ['X'] ['W']).bind
        (fun x => remove_conv_pair x ['Z'] ['Q']) =
      (remove_conv_pair builder_XY ['Z'] ['Q']).bind
        (fun x => add_conv_pair x ['X'] ['W'])) := by
  exact ⟨C7_build_precedence.1 builder_XY ['X'] (by decide),
    C7_build_precedence.2.1 builder_XY ['X'] ['W'] ['Z'] ['Q'] (by decide)⟩
